import Mathlib

set_option maxHeartbeats 1000000

namespace TI6

/-!
Shallow embedding of the mining engine of this repository:
  app/scripts/github_api.py          (resilient request layer)
  app/scripts/find_dependency_replacements.py
                                     (diff extractor, blob metrics, orchestrator)
  app/scripts/compute_js_metrics.py  (keyword-heuristic complexity)
  app/scripts/metrics.py             (vulnerability lookup and cache)

Network responses, blob contents, commit details and the lizard library are
modelled as explicit oracle parameters; everything the repository's own code
computes is translated directly from the source.
-/

/-! ### Python dict as an insertion-ordered association list

Python `d[k] = v` keeps the position of an existing key and overwrites its
value; a new key is appended at the end.  `dictLookup` models `d.get(k)` /
`k in d`. -/

def dictInsert {α : Type} : List (String × α) → String → α → List (String × α)
  | [], k, v => [(k, v)]
  | (k', v') :: t, k, v =>
    if k' = k then (k, v) :: t else (k', v') :: dictInsert t k v

def dictLookup {α : Type} : List (String × α) → String → Option α
  | [], _ => none
  | (k', v') :: t, k => if k' = k then some v' else dictLookup t k

/-! ### Resilient request layer  (github_api.request_with_backoff)

One call of `s.request` per loop iteration is modelled by an oracle
`net : Nat → AttemptOutcome` giving the outcome of the i-th attempt
(1-indexed): a raised `requests.RequestException`, or a response with a
status code and body text.  `requests.HTTPError` raised by
`resp.raise_for_status()` is a subclass of `RequestException`, so it is
caught by the `except` clause of the loop — this is visible below in the
third branch of the match.  The trace records the final result, how many
attempts were made, and how many `_sleep_backoff` calls happened. -/

inductive AttemptOutcome
  | netError (msg : String)
  | response (status : Nat) (text : String)
  deriving DecidableEq

inductive ReqError
  | statusError (status : Nat) (text : String)
  | httpError (status : Nat)
  | netException (msg : String)
  | runtimeExhausted
  deriving DecidableEq

inductive ReqResult
  | ok (status : Nat) (text : String)
  | err (e : ReqError)
  deriving DecidableEq

structure ReqTrace where
  result : ReqResult
  attempts : Nat
  sleeps : Nat
  deriving DecidableEq

def RETRYABLE : List Nat := [429, 403, 502, 503, 504]

/-- The `while attempt < max_retries` loop, with `remaining = max_retries - attempt`
as structural fuel. -/
def requestLoopAux (net : Nat → AttemptOutcome) :
    Nat → Nat → Option ReqError → Nat → ReqTrace
  | 0, attempt, lastExc, sleeps =>
    ⟨.err (lastExc.getD .runtimeExhausted), attempt, sleeps⟩
  | remaining + 1, attempt, lastExc, sleeps =>
    let a := attempt + 1
    match net a with
    | .netError msg =>
      requestLoopAux net remaining a (some (.netException msg)) (sleeps + 1)
    | .response st txt =>
      if st < 400 then ⟨.ok st txt, a, sleeps⟩
      else if st ∈ RETRYABLE then
        requestLoopAux net remaining a (some (.statusError st txt)) (sleeps + 1)
      else
        -- resp.raise_for_status() raises HTTPError, caught by `except RequestException`
        requestLoopAux net remaining a (some (.httpError st)) (sleeps + 1)

def request_with_backoff (net : Nat → AttemptOutcome) (max_retries : Nat) : ReqTrace :=
  requestLoopAux net max_retries 0 none 0

/-- Any attempt outcome that sends the loop around again (network failure, or
any response with status at least 400 — retryable or not). -/
def isRetried : AttemptOutcome → Bool
  | .netError _ => true
  | .response st _ => decide (400 ≤ st)

/-- The error the loop records for such an outcome. -/
def retriedErr : AttemptOutcome → ReqError
  | .netError msg => .netException msg
  | .response st txt => if st ∈ RETRYABLE then .statusError st txt else .httpError st

/-! ### Claim C1 -/

/-- A non-retryable 4xx on every attempt (status 404). -/
def c404net : Nat → AttemptOutcome := fun _ => .response 404 "Not Found"

/-- Outcome predicate: a response whose status is a 4xx/5xx outside the
retryable set (e.g. 404, 400, 401). -/
def isRejected : AttemptOutcome → Bool
  | .netError _ => false
  | .response st _ => decide (400 ≤ st) && !(decide (st ∈ RETRYABLE))

def statusOf : AttemptOutcome → Nat
  | .netError _ => 0
  | .response st _ => st

/-! ### Claim C4 -/

/-- Outcome predicate: network-level failure or retryable status. -/
def isTransient : AttemptOutcome → Bool
  | .netError _ => true
  | .response st _ => decide (st ∈ RETRYABLE)

/-- The error recorded for a transient outcome: the last observed status/text,
or the last network exception. -/
def outcomeErr : AttemptOutcome → ReqError
  | .netError msg => .netException msg
  | .response st txt => .statusError st txt

/-- All-503 network for the C4 witness. -/
def c503net : Nat → AttemptOutcome := fun _ => .response 503 "Service Unavailable"

/-! ### Backoff sleep policy  (github_api._sleep_backoff)

Headers are modelled post-parse: `retryAfter = some r` means the Retry-After
header is present, truthy and `int()`-parses to `r` (absent / empty /
unparsable are all `none`, which in the source all fall through identically);
likewise `rateLimitReset`.  `X-RateLimit-Remaining` is compared as a string.
`now` models `int(time.time())` and `jitter` the `random.uniform(0.5, 2.0)`
draw.  `time.sleep` of a negative duration raises ValueError inside the
enclosing `try`, which the source swallows and falls through — hence the
`0 ≤ sec + 1` guard. -/

inductive BackoffCause
  | retryAfterHdr
  | rateReset
  | expJitter
  deriving DecidableEq

structure BackoffResp where
  retryAfter : Option Int
  rateLimitRemaining : Option String
  rateLimitReset : Option Int
  deriving DecidableEq

def expSleep (attempt : Nat) (jitter : ℚ) : ℚ × BackoffCause :=
  (((min 60 (2 ^ attempt) : ℕ) : ℚ) + jitter, .expJitter)

def rateOrExp (r : BackoffResp) (attempt : Nat) (now : Int) (jitter : ℚ) : ℚ × BackoffCause :=
  if r.rateLimitRemaining = some "0" then
    match r.rateLimitReset with
    | some ts => (((max 0 (ts - now + 2) : ℤ) : ℚ), .rateReset)
    | none => expSleep attempt jitter
  else expSleep attempt jitter

def sleep_backoff (attempt : Nat) (resp : Option BackoffResp) (now : Int) (jitter : ℚ) :
    ℚ × BackoffCause :=
  match resp with
  | none => expSleep attempt jitter
  | some r =>
    match r.retryAfter with
    | some sec =>
      if 0 ≤ sec + 1 then (((sec + 1 : ℤ) : ℚ), .retryAfterHdr)
      else rateOrExp r attempt now jitter
    | none => rateOrExp r attempt now jitter

/-! ### Dependency-diff extractor
(find_dependency_replacements.parse_removed_added_from_patch)

The patch text is modelled as its list of lines.  The source scans the text
with the MULTILINE regex `^[\-\+]\s*"(?P<name>[^"]+)":\s*"(?P<ver>[^"]+)"`,
which anchors every match at a line start; `parseDepLine` is that pattern
applied to one line.  `\s` is `isPySpace`. -/

def isPySpace (c : Char) : Bool :=
  c == ' ' || c == '\t' || c == '\n' || c == '\r' || c == '\x0b' || c == '\x0c'

/-- `"([^"]+)"`: an opening quote, a nonempty greedy run of non-quote
characters, a closing quote; returns the run and the rest after the closing
quote. -/
def parseQuoted (s : List Char) : Option (List Char × List Char) :=
  match s with
  | '\"' :: r =>
    match r.dropWhile (fun c => c != '\"') with
    | '\"' :: r2 =>
      if r.takeWhile (fun c => c != '\"') = [] then none
      else some (r.takeWhile (fun c => c != '\"'), r2)
    | _ => none
  | _ => none

def parseDepLine (line : List Char) : Option (Char × List Char × List Char) :=
  match line with
  | [] => none
  | op :: rest =>
    if op = '-' ∨ op = '+' then
      match parseQuoted (rest.dropWhile isPySpace) with
      | some (name, restAfterName) =>
        match restAfterName with
        | ':' :: r3 =>
          match parseQuoted (r3.dropWhile isPySpace) with
          | some (ver, _) => some (op, name, ver)
          | none => none
        | _ => none
      | none => none
    else none

/-- One line of the source loop over regex matches: classify by the leading
sign into the removed-map or the added-map (dict assignment, so a later
occurrence of the same name overwrites the earlier one). -/
def parseStep (acc : List (String × String) × List (String × String)) (line : List Char) :
    List (String × String) × List (String × String) :=
  match parseDepLine line with
  | some r =>
    if r.1 = '-' then (dictInsert acc.1 (String.mk r.2.1) (String.mk r.2.2), acc.2)
    else if r.1 = '+' then (acc.1, dictInsert acc.2 (String.mk r.2.1) (String.mk r.2.2))
    else acc
  | none => acc

def parse_removed_added_from_patch (patch : List (List Char)) :
    List (String × String) × List (String × String) :=
  patch.foldl parseStep ([], [])

/-- The (name, version) pairs of lines matching with a leading minus, in
order of occurrence. -/
def minusPairs (patch : List (List Char)) : List (String × String) :=
  patch.filterMap (fun line =>
    match parseDepLine line with
    | some r => if r.1 = '-' then some (String.mk r.2.1, String.mk r.2.2) else none
    | none => none)

/-- Likewise for leading plus. -/
def plusPairs (patch : List (List Char)) : List (String × String) :=
  patch.filterMap (fun line =>
    match parseDepLine line with
    | some r =>
      if r.1 = '-' then none
      else if r.1 = '+' then some (String.mk r.2.1, String.mk r.2.2) else none
    | none => none)

/-- The version of the last occurrence of name `n` among the pairs. -/
def lastValueFor (ps : List (String × String)) (n : String) : Option String :=
  (ps.reverse.find? (fun p => p.1 == n)).map Prod.snd

/-! ### Dependency Change construction  (analyze_repo, lines 183-199) -/

structure DepChange where
  name : String
  versions_before : List String
  versions_after : List String
  file : String
  deriving DecidableEq

def mkDepChange (ad : List (String × String)) (fname : String) (p : String × String) :
    DepChange :=
  { name := p.1,
    versions_before := if p.2 ≠ "" then [p.2] else [],
    versions_after :=
      match dictLookup ad p.1 with
      | some w => [w]
      | none => [],
    file := fname }

/-- The `removed_list` entries the orchestrator builds for one modified
manifest file: one per name in the removed-map, in map order. -/
def removedEntriesForFile (fname : String) (patch : List (List Char)) : List DepChange :=
  ((parse_removed_added_from_patch patch).1).map
    (mkDepChange (parse_removed_added_from_patch patch).2 fname)

/-- A concrete patch for the C2 witness: lodash is removed twice with
different versions (last wins) and re-added once; left-pad is only removed. -/
def c2patch : List (List Char) :=
  ["-  \"lodash\": \"4.17.10\"".data,
   "+  \"lodash\": \"4.17.21\"".data,
   "-  \"left-pad\": \"1.3.0\"".data,
   "-  \"lodash\": \"4.17.11\"".data]

/-! ### Blob-based complexity analyzer
(find_dependency_replacements.compute_metrics_from_commit)

The tree returned by `get_tree_for_ref` is an explicit input; blob fetching
(`get_blob_content`, which returns `None` on non-200 status, missing or
non-base64 encoding, decode failure or any transport error) is the oracle
`fetch`; the optional lizard library is the flag `haveLizard` with oracle
`lizardO` giving the per-function complexity list (already `[]` when lizard
itself fails, as the source catches that and returns `loc, []`).  Blob text
is modelled pre-split into lines. -/

def strToLower (s : String) : String := String.mk (s.data.map Char.toLower)

def strEndsWith (s suffix : String) : Bool := suffix.data.isSuffixOf s.data

/-- Python substring containment `needle in haystack`. -/
def listInfix (needle : List Char) : List Char → Bool
  | [] => needle.isEmpty
  | c :: rest => needle.isPrefixOf (c :: rest) || listInfix needle rest

structure TreeItem where
  type : String
  path : String
  sha : String
  size : Option Nat
  deriving DecidableEq

def SRC_EXTS : List String := [".js", ".jsx", ".ts", ".tsx", ".mjs", ".cjs"]

def SKIP_PATH_PARTS : List String :=
  ["node_modules/", "bower_components/", "dist/", "build/", "vendor/", ".git/"]

def MAX_BLOB_BYTES : Nat := 1024 * 1024

/-- The candidate filter of the source loop: type blob, recognized source
suffix on the lowercased path, no excluded path substring, and
`size and size > MAX_BLOB_BYTES` does not hold (`item.get("size") or 0`). -/
def isCandidateBlob (item : TreeItem) : Bool :=
  item.type == "blob" &&
  SRC_EXTS.any (fun ext => strEndsWith (strToLower item.path) ext) &&
  !(SKIP_PATH_PARTS.any (fun part => listInfix part.data item.path.data)) &&
  !(((item.size.getD 0) != 0) && decide (MAX_BLOB_BYTES < item.size.getD 0))

def candidateBlobs (tree : List TreeItem) : List TreeItem := tree.filter isCandidateBlob

/-- `if file_limit and total_candidates > file_limit: candidates[:file_limit]`
— note a file_limit of 0 is falsy in Python, disabling truncation. -/
def truncatedCandidates (tree : List TreeItem) (file_limit : Nat) : List TreeItem :=
  if file_limit ≠ 0 ∧ file_limit < (candidateBlobs tree).length then
    (candidateBlobs tree).take file_limit
  else candidateBlobs tree

/-- Non-blank line count: `[ln for ln in source.splitlines() if ln.strip()]`. -/
def nonblankLineCount (content : List String) : Nat :=
  (content.filter (fun ln => ln.data.any (fun c => !(isPySpace c)))).length

def analyze_source_complexity (haveLizard : Bool) (lizardO : String → List String → List ℚ)
    (content : List String) (path : String) : Nat × List ℚ :=
  (nonblankLineCount content, if haveLizard then lizardO path content else [])

def qMean (l : List ℚ) : ℚ := l.sum / (l.length : ℚ)

/-- Python `round` to the nearest integer, ties to even. -/
def roundHalfEven (q : ℚ) : ℤ :=
  if q - ⌊q⌋ < 1/2 then ⌊q⌋
  else if 1/2 < q - ⌊q⌋ then ⌊q⌋ + 1
  else if ⌊q⌋ % 2 = 0 then ⌊q⌋ else ⌊q⌋ + 1

/-- Python `round(x, 4)` (idealized over ℚ). -/
def roundQ4 (q : ℚ) : ℚ := ((roundHalfEven (q * 10000) : ℤ) : ℚ) / 10000

structure Metrics where
  lines_of_code : Nat
  avg_complexity : ℚ
  files_processed : Nat
  deriving DecidableEq

/-- One iteration of the blob loop: a failed fetch (`content is None`) is
skipped, a successful one contributes its line count, its complexity scores
and one processed file. -/
def metricsStep (fetch : String → Option (List String)) (haveLizard : Bool)
    (lizardO : String → List String → List ℚ)
    (acc : Nat × List ℚ × Nat) (item : TreeItem) : Nat × List ℚ × Nat :=
  match fetch item.sha with
  | none => acc
  | some content =>
    let r := analyze_source_complexity haveLizard lizardO content item.path
    (acc.1 + r.1, acc.2.1 ++ r.2, acc.2.2 + 1)

def compute_metrics_from_commit (tree : List TreeItem) (fetch : String → Option (List String))
    (haveLizard : Bool) (lizardO : String → List String → List ℚ) (file_limit : Nat) :
    Metrics :=
  if tree = [] then ⟨0, 0, 0⟩
  else if candidateBlobs tree = [] then ⟨0, 0, 0⟩
  else
    let res := (truncatedCandidates tree file_limit).foldl
      (metricsStep fetch haveLizard lizardO) (0, [], 0)
    ⟨res.1, if res.2.1 ≠ [] then roundQ4 (qMean res.2.1) else 0, res.2.2⟩

/-- The retained blobs whose fetch succeeds. -/
def successfulFetches (tree : List TreeItem) (fetch : String → Option (List String))
    (file_limit : Nat) : List TreeItem :=
  (truncatedCandidates tree file_limit).filter (fun it => (fetch it.sha).isSome)

/-- All complexity scores collected over the successfully fetched blobs. -/
def collectedComps (tree : List TreeItem) (fetch : String → Option (List String))
    (haveLizard : Bool) (lizardO : String → List String → List ℚ) (file_limit : Nat) :
    List ℚ :=
  ((successfulFetches tree fetch file_limit).map
    (fun it => if haveLizard then lizardO it.path ((fetch it.sha).getD []) else [])).join

/-! ### Claim C6 -/

/-- A tree with exactly one qualifying source blob. -/
def c6tree : List TreeItem :=
  [{ type := "blob", path := "a.js", sha := "sha1", size := some 10 }]

/-! ### Keyword-heuristic complexity  (compute_js_metrics.analyze_contents)

`KEYWORDS_RE = \bif\b|\bfor\b|\bwhile\b|\bcase\b|\bcatch\b|&&|\|\|` and
`FUNCTION_RE = \bfunction\b|=>`, both IGNORECASE.  `countMatches` models
`len(RE.findall(src))`: scan left to right, at each position try the
alternatives in order (word-bounded tokens check `\b` on both sides), count
a match and jump past it, else advance one character.  Word characters are
the ASCII `\w`.  File sources are full texts (`List Char`), since the regex
runs on the whole text while `loc` counts `len(src.splitlines())`. -/

def isWordChar (c : Char) : Bool := c.isAlphanum || c == '_'

def prevIsWordChar : Option Char → Bool
  | some c => isWordChar c
  | none => false

/-- Case-insensitive prefix match of a (lowercase) token. -/
def matchTokenCI : List Char → List Char → Bool
  | [], _ => true
  | _ :: _, [] => false
  | t :: ts, c :: cs => (c.toLower == t) && matchTokenCI ts cs

structure RegexAlt where
  word : Bool
  token : List Char

def altMatchLen (prev : Option Char) (s : List Char) (a : RegexAlt) : Option Nat :=
  if a.word then
    if prevIsWordChar prev then none
    else if matchTokenCI a.token s then
      match s.drop a.token.length with
      | [] => some a.token.length
      | c :: _ => if isWordChar c then none else some a.token.length
    else none
  else if matchTokenCI a.token s then some a.token.length else none

def tryAlts : List RegexAlt → Option Char → List Char → Option Nat
  | [], _, _ => none
  | a :: rest, prev, s =>
    match altMatchLen prev s a with
    | some n => some n
    | none => tryAlts rest prev s

/-- The scan loop; fuel is the input length (each step consumes at least one
character, so this fuel is always sufficient). -/
def countAux (alts : List RegexAlt) : Nat → Option Char → List Char → Nat
  | 0, _, _ => 0
  | _ + 1, _, [] => 0
  | fuel + 1, prev, c :: rest =>
    match tryAlts alts prev (c :: rest) with
    | some n =>
      if 0 < n then
        1 + countAux alts fuel (((c :: rest).take n).getLast?) ((c :: rest).drop n)
      else 1 + countAux alts fuel (some c) rest
    | none => countAux alts fuel (some c) rest

def countMatches (alts : List RegexAlt) (s : List Char) : Nat :=
  countAux alts s.length none s

def KEYWORD_ALTS : List RegexAlt :=
  [⟨true, "if".data⟩, ⟨true, "for".data⟩, ⟨true, "while".data⟩,
   ⟨true, "case".data⟩, ⟨true, "catch".data⟩, ⟨false, "&&".data⟩, ⟨false, "||".data⟩]

def FUNCTION_ALTS : List RegexAlt := [⟨true, "function".data⟩, ⟨false, "=>".data⟩]

/-- `len(src.splitlines())` (modelling newline-only line breaks). -/
def pyLineCount (s : List Char) : Nat :=
  if s = [] then 0
  else (s.filter (fun c => c == '\n')).length + (if s.getLast? = some '\n' then 0 else 1)

structure JsMetrics where
  lines_of_code : Nat
  avg_complexity : ℚ
  deriving DecidableEq

/-- One iteration of the `for file in contents` loop: an empty source is
skipped; a file with zero detected functions but nonzero keywords counts as
one implicit function; the keyword-plus-function count is always the file's
contribution. -/
def contentsStep (acc : Nat × Nat × Nat) (src : List Char) : Nat × Nat × Nat :=
  if src = [] then acc
  else
    if countMatches FUNCTION_ALTS src = 0 ∧ 0 < countMatches KEYWORD_ALTS src then
      (acc.1 + pyLineCount src, acc.2.1 + 1,
       acc.2.2 + (countMatches FUNCTION_ALTS src + countMatches KEYWORD_ALTS src))
    else
      (acc.1 + pyLineCount src, acc.2.1 + countMatches FUNCTION_ALTS src,
       acc.2.2 + (countMatches FUNCTION_ALTS src + countMatches KEYWORD_ALTS src))

def analyze_contents (contents : List (List Char)) : JsMetrics :=
  ⟨(contents.foldl contentsStep (0, 0, 0)).1,
   if 0 < (contents.foldl contentsStep (0, 0, 0)).2.1 then
     roundQ4 (((contents.foldl contentsStep (0, 0, 0)).2.2 : ℚ) /
              ((contents.foldl contentsStep (0, 0, 0)).2.1 : ℚ))
   else 0⟩

/-- The per-file function tally described by the spec: the detected function
count, or one implicit function when none are detected but keywords exist. -/
def fileFunctionTally (src : List Char) : Nat :=
  if countMatches FUNCTION_ALTS src = 0 ∧ 0 < countMatches KEYWORD_ALTS src then 1
  else countMatches FUNCTION_ALTS src

def specTotalLoc (contents : List (List Char)) : Nat := (contents.map pyLineCount).sum

def specTotalFunctions (contents : List (List Char)) : Nat :=
  (contents.map fileFunctionTally).sum

def specTotalContrib (contents : List (List Char)) : Nat :=
  (contents.map
    (fun src => countMatches FUNCTION_ALTS src + countMatches KEYWORD_ALTS src)).sum

/-- A file with three `function` tokens and one `if` keyword: the exact ratio
4/3 is not representable in 4 decimal places. -/
def c9file : List Char := "function function function if".data

/-! ### Vulnerability lookup and cache  (metrics.get_cve_for_package)

`netO` is the oracle for the one outbound POST this call would make:
`some result` models a 200 response whose JSON parses, giving
`(len(vulns), ids)`; `none` models a non-200 status or any raised exception.
The Python function mutates the cache dict in place; the embedding returns
the updated cache. -/

def get_cve_for_package (netO : Option (Nat × List String))
    (cache : List (String × (Nat × List String))) (package_name : String) :
    (Nat × List String) × List (String × (Nat × List String)) :=
  match dictLookup cache package_name with
  | some v => (v, cache)
  | none =>
    match netO with
    | some result => (result, dictInsert cache package_name result)
    | none => ((0, []), dictInsert cache package_name (0, []))

/-! ### Mining orchestrator  (find_dependency_replacements.analyze_repo)

Oracles: `detailO` models `get_commit_detail` (None on any failure),
`metricsO` models `compute_metrics_from_commit` where `none` is a raised
exception (caught per snapshot and replaced by the zeroed dict
`{lines_of_code: 0, avg_complexity: 0.0}`), `cveO` models
`get_cve_for_package` with the run's shared cache (total: the source wraps
it in try/except to (0, [])), `keepDate` models the days_back recency
predicate on a commit (kept when the date is missing or unparsable).
`include_pkg_snapshots` and the on-disk output are I/O and not modelled. -/

structure CommitInfo where
  sha : String
  parents : List String
  deriving DecidableEq

structure FileEntry where
  filename : String
  patch : Option (List (List Char))
  deriving DecidableEq

structure CommitDetail where
  files : List FileEntry
  message : String
  date : String
  deriving DecidableEq

structure MetricsPair where
  lines_of_code : Nat
  avg_complexity : ℚ
  deriving DecidableEq

structure Candidate where
  repo : String
  commit : String
  parent : String
  commit_message : String
  commit_date : String
  removed_dep : String
  versions_before : List String
  versions_after : List String
  file : String
  cve_count : Nat
  cve_ids : List String
  metrics_before : MetricsPair
  metrics_after : MetricsPair
  deriving DecidableEq

/-- The `removed_list` accumulated over a commit's files: only files whose
lowercased name ends in package.json contribute, in file order. -/
def removedListOfFiles (files : List FileEntry) : List DepChange :=
  files.foldl (fun acc f =>
    if strEndsWith (strToLower f.filename) "package.json" then
      acc ++ removedEntriesForFile f.filename (f.patch.getD [])
    else acc) []

def mkCandidate (repo sha parent : String) (d : CommitDetail) (mb ma : MetricsPair)
    (cveO : String → Nat × List String) (r : DepChange) : Candidate :=
  { repo := repo, commit := sha, parent := parent,
    commit_message := d.message, commit_date := d.date,
    removed_dep := r.name,
    versions_before := r.versions_before, versions_after := r.versions_after,
    file := r.file,
    cve_count := (cveO r.name).1, cve_ids := (cveO r.name).2,
    metrics_before := mb, metrics_after := ma }

/-- The inner `for r in removed_list` loop: append a candidate, then break
when the per-repository cap is reached (`max_candidates` of 0 is falsy in
Python: no cap). -/
def emitLoop (mk : DepChange → Candidate) (maxC : Nat) :
    List Candidate → List DepChange → List Candidate
  | results, [] => results
  | results, r :: rs =>
    if maxC ≠ 0 ∧ maxC ≤ (results ++ [mk r]).length then results ++ [mk r]
    else emitLoop mk maxC (results ++ [mk r]) rs

/-- The outer `for c in commits` loop. -/
def mineLoop (repo : String) (detailO : String → Option CommitDetail)
    (metricsO : String → Option MetricsPair) (cveO : String → Nat × List String)
    (maxC : Nat) : List Candidate → List CommitInfo → List Candidate
  | results, [] => results
  | results, c :: rest =>
    if maxC ≠ 0 ∧ maxC ≤ results.length then results
    else
      match c.parents with
      | [] => mineLoop repo detailO metricsO cveO maxC results rest
      | parent :: _ =>
        match detailO c.sha with
        | none => mineLoop repo detailO metricsO cveO maxC results rest
        | some d =>
          if removedListOfFiles d.files = [] then
            mineLoop repo detailO metricsO cveO maxC results rest
          else
            mineLoop repo detailO metricsO cveO maxC
              (emitLoop
                (mkCandidate repo c.sha parent d ((metricsO parent).getD ⟨0, 0⟩)
                  ((metricsO c.sha).getD ⟨0, 0⟩) cveO)
                maxC results (removedListOfFiles d.files))
              rest

def analyze_repo (repo : String) (commits : List CommitInfo) (daysBack : Bool)
    (keepDate : CommitInfo → Bool) (limit_commits : Nat)
    (detailO : String → Option CommitDetail) (metricsO : String → Option MetricsPair)
    (cveO : String → Nat × List String) (max_candidates : Nat) : List Candidate :=
  if commits = [] then []
  else
    mineLoop repo detailO metricsO cveO max_candidates []
      (if limit_commits ≠ 0 then
        (if daysBack then commits.filter keepDate else commits).take limit_commits
       else (if daysBack then commits.filter keepDate else commits))

/-- The guard structure a Candidate Record certifies: its commit is one of
the listed commits, has at least one parent, its detail resolved, and some
modified manifest file's patch produced a non-empty removed-map. -/
def CandProp (commits0 : List CommitInfo) (detailO : String → Option CommitDetail)
    (x : Candidate) : Prop :=
  ∃ c, c ∈ commits0 ∧ x.commit = c.sha ∧ c.parents ≠ [] ∧
    ∃ d, detailO c.sha = some d ∧ removedListOfFiles d.files ≠ [] ∧
      ∃ f, f ∈ d.files ∧ strEndsWith (strToLower f.filename) "package.json" = true ∧
        (parse_removed_added_from_patch (f.patch.getD [])).1 ≠ []

def c7commits : List CommitInfo := [⟨"c1", ["p0"]⟩]

def c7detail : String → Option CommitDetail := fun _ =>
  some ⟨[⟨"package.json", some ["-  \"lodash\": \"4.17.10\"".data]⟩],
        "remove lodash", "2024-01-01T00:00:00Z"⟩

def c7cand : Candidate :=
  { repo := "r", commit := "c1", parent := "p0",
    commit_message := "remove lodash", commit_date := "2024-01-01T00:00:00Z",
    removed_dep := "lodash", versions_before := ["4.17.10"], versions_after := [],
    file := "package.json", cve_count := 0, cve_ids := [],
    metrics_before := ⟨10, 1⟩, metrics_after := ⟨12, 2⟩ }

/-! ### Claim C8 -/

/-- A Candidate without its two metrics snapshots. -/
def stripMetrics (c : Candidate) :
    String × String × String × String × String × String ×
      List String × List String × String × Nat × List String :=
  (c.repo, c.commit, c.parent, c.commit_message, c.commit_date, c.removed_dep,
   c.versions_before, c.versions_after, c.file, c.cve_count, c.cve_ids)

def ZeroedProp (metricsO : String → Option MetricsPair) (x : Candidate) : Prop :=
  (metricsO x.parent = none → x.metrics_before = ⟨0, 0⟩) ∧
  (metricsO x.commit = none → x.metrics_after = ⟨0, 0⟩)

def c8commits : List CommitInfo := [⟨"c2", ["p1"]⟩]

def c8detail : String → Option CommitDetail := fun _ =>
  some ⟨[⟨"package.json", some ["-  \"left-pad\": \"1.3.0\"".data]⟩],
        "rm left-pad", "2024-02-02T00:00:00Z"⟩

def c8cand : Candidate :=
  { repo := "r2", commit := "c2", parent := "p1",
    commit_message := "rm left-pad", commit_date := "2024-02-02T00:00:00Z",
    removed_dep := "left-pad", versions_before := ["1.3.0"], versions_after := [],
    file := "package.json", cve_count := 1, cve_ids := ["CVE-2024-0001"],
    metrics_before := ⟨0, 0⟩, metrics_after := ⟨0, 0⟩ }

/-! ## Theorems -/

theorem dictLookup_insert {α : Type} (d : List (String × α)) (k : String) (v : α) (n : String) :
    dictLookup (dictInsert d k v) n = if k = n then some v else dictLookup d n := by
  induction d with
  | nil =>
    by_cases h : k = n <;> simp [dictInsert, dictLookup, h]
  | cons hd t ih =>
    obtain ⟨k', v'⟩ := hd
    by_cases h1 : k' = k
    · subst h1
      by_cases h2 : k' = n <;> simp [dictInsert, dictLookup, h2]
    · by_cases h2 : k' = n
      · subst h2
        have : ¬ k = k' := fun h => h1 h.symm
        simp [dictInsert, dictLookup, h1, this]
      · simp [dictInsert, dictLookup, h1, h2, ih]

theorem mem_dictInsert {α : Type} (d : List (String × α)) (k : String) (v : α)
    (x : String × α) (hx : x ∈ dictInsert d k v) : x = (k, v) ∨ x ∈ d := by
  induction d with
  | nil => simpa [dictInsert] using hx
  | cons hd t ih =>
    obtain ⟨k', v'⟩ := hd
    by_cases h1 : k' = k
    · subst h1
      rcases (by simpa [dictInsert] using hx : x = (k', v) ∨ x ∈ t) with h | h
      · exact Or.inl h
      · exact Or.inr (List.mem_cons_of_mem _ h)
    · rcases (by simpa [dictInsert, h1] using hx : x = (k', v') ∨ x ∈ dictInsert t k v) with h | h
      · exact Or.inr (by simp [h])
      · rcases ih h with h' | h'
        · exact Or.inl h'
        · exact Or.inr (List.mem_cons_of_mem _ h')

theorem dictInsert_keys {α : Type} (d : List (String × α)) (k : String) (v : α) :
    (dictInsert d k v).map Prod.fst =
      if k ∈ d.map Prod.fst then d.map Prod.fst else d.map Prod.fst ++ [k] := by
  induction d with
  | nil => simp [dictInsert]
  | cons hd t ih =>
    obtain ⟨k', v'⟩ := hd
    by_cases h1 : k' = k
    · subst h1; simp [dictInsert]
    · have h1' : ¬ k = k' := fun h => h1 h.symm
      by_cases h2 : k ∈ t.map Prod.fst <;>
        simp [dictInsert, h1, h1', h2, ih]

theorem dictInsert_keys_nodup {α : Type} (d : List (String × α)) (k : String) (v : α)
    (h : (d.map Prod.fst).Nodup) : ((dictInsert d k v).map Prod.fst).Nodup := by
  rw [dictInsert_keys]
  by_cases hk : k ∈ d.map Prod.fst
  · simpa [hk]
  · simp only [hk, if_false]
    rw [List.nodup_append]
    exact ⟨h, List.nodup_singleton k, fun a ha hb => hk ((List.mem_singleton.mp hb) ▸ ha)⟩

theorem dictLookup_mem {α : Type} (d : List (String × α)) (n : String) (v : α)
    (h : dictLookup d n = some v) : (n, v) ∈ d := by
  induction d with
  | nil => simp [dictLookup] at h
  | cons hd t ih =>
    obtain ⟨k', v'⟩ := hd
    by_cases h1 : k' = n
    · subst h1
      simp [dictLookup] at h
      simp [h]
    · simp [dictLookup, h1] at h
      exact List.mem_cons_of_mem _ (ih h)

theorem dictLookup_eq_none {α : Type} (d : List (String × α)) (n : String) :
    dictLookup d n = none ↔ n ∉ d.map Prod.fst := by
  induction d with
  | nil => simp [dictLookup]
  | cons hd t ih =>
    obtain ⟨k', v'⟩ := hd
    by_cases h1 : k' = n
    · subst h1; simp [dictLookup]
    · have h1' : ¬ n = k' := fun h => h1 h.symm
      simp [dictLookup, h1, h1', ih]

/-- Folding dict assignment over a pair list: the surviving value for a key is
the one of the last pair carrying that key (Python last-assignment-wins). -/
theorem dictLookup_foldl {α : Type} (ps : List (String × α)) (d : List (String × α)) (n : String) :
    dictLookup (ps.foldl (fun acc p => dictInsert acc p.1 p.2) d) n =
      match ps.reverse.find? (fun p => p.1 == n) with
      | some p => some p.2
      | none => dictLookup d n := by
  induction ps generalizing d with
  | nil => simp
  | cons p ps ih =>
    simp only [List.foldl_cons, List.reverse_cons]
    rw [ih, List.find?_append]
    cases hf : ps.reverse.find? (fun p => p.1 == n) with
    | some q => simp [hf]
    | none =>
      simp only [hf, Option.none_or]
      rw [dictLookup_insert]
      by_cases h : p.1 = n
      · have hb : (p.1 == n) = true := beq_iff_eq.mpr h
        simp [List.find?, hb, h]
      · have hb : (p.1 == n) = false := beq_eq_false_iff_ne.mpr h
        simp [List.find?, hb, h]

theorem requestLoopAux_exhaust (net : Nat → AttemptOutcome) :
    ∀ (n attempt : Nat) (lastExc : Option ReqError) (sleeps : Nat),
      (∀ i, attempt < i → i ≤ attempt + (n + 1) → isRetried (net i) = true) →
      requestLoopAux net (n + 1) attempt lastExc sleeps =
        ⟨.err (retriedErr (net (attempt + (n + 1)))), attempt + (n + 1), sleeps + (n + 1)⟩ := by
  intro n
  induction n with
  | zero =>
    intro attempt lastExc sleeps h
    have h1 := h (attempt + 1) (by omega) (by omega)
    cases ho : net (attempt + 1) with
    | netError msg =>
      simp [requestLoopAux, ho, retriedErr]
    | response st txt =>
      have hst : 400 ≤ st := by
        rw [ho] at h1; simpa [isRetried] using h1
      have hst' : ¬ st < 400 := by omega
      by_cases hr : st ∈ RETRYABLE <;>
        simp [requestLoopAux, ho, hst', hr, retriedErr]
  | succ m ih =>
    intro attempt lastExc sleeps h
    have h1 := h (attempt + 1) (by omega) (by omega)
    have hrest : ∀ i, attempt + 1 < i → i ≤ (attempt + 1) + (m + 1) →
        isRetried (net i) = true := by
      intro i hi1 hi2
      exact h i (by omega) (by omega)
    have harith : (attempt + 1) + (m + 1) = attempt + (m + 1 + 1) := by omega
    cases ho : net (attempt + 1) with
    | netError msg =>
      show requestLoopAux net (m + 1 + 1) attempt lastExc sleeps = _
      rw [show requestLoopAux net (m + 1 + 1) attempt lastExc sleeps =
            requestLoopAux net (m + 1) (attempt + 1)
              (some (.netException msg)) (sleeps + 1) by
        simp [requestLoopAux, ho]]
      rw [ih (attempt + 1) _ _ hrest]
      rw [harith]
      congr 1 <;> omega
    | response st txt =>
      have hst : 400 ≤ st := by
        rw [ho] at h1; simpa [isRetried] using h1
      have hst' : ¬ st < 400 := by omega
      by_cases hr : st ∈ RETRYABLE
      · rw [show requestLoopAux net (m + 1 + 1) attempt lastExc sleeps =
              requestLoopAux net (m + 1) (attempt + 1)
                (some (.statusError st txt)) (sleeps + 1) by
          simp [requestLoopAux, ho, hst', hr]]
        rw [ih (attempt + 1) _ _ hrest]
        rw [harith]
        congr 1 <;> omega
      · rw [show requestLoopAux net (m + 1 + 1) attempt lastExc sleeps =
              requestLoopAux net (m + 1) (attempt + 1)
                (some (.httpError st)) (sleeps + 1) by
          simp [requestLoopAux, ho, hst', hr]]
        rw [ih (attempt + 1) _ _ hrest]
        rw [harith]
        congr 1 <;> omega

/-- Claim C1, as stated, is false on the code: a 404 response does NOT make the
call fail immediately without further retry attempts or backoff sleeps.  With a
404 on every attempt the loop performs all 6 attempts and 6 backoff sleeps
before failing, because the HTTPError raised by `raise_for_status` is itself a
`RequestException` and is caught by the retry loop's own handler. -/
theorem C1_counterexample :
    request_with_backoff c404net 6 = ⟨.err (.httpError 404), 6, 6⟩ ∧
    ¬ ((request_with_backoff c404net 6).attempts = 1 ∧
       (request_with_backoff c404net 6).sleeps = 0) := by
  constructor
  · rfl
  · intro h
    have : (request_with_backoff c404net 6).attempts = 6 := by rfl
    omega

/-- Claim C1 (amended): a response with a 4xx status outside the retryable set
{429, 403} raises an HTTPError via `raise_for_status`, which is caught by the
loop's generic `except requests.RequestException` handler, so the call is
retried with a backoff sleep like a network failure; only after all 6 attempts
are exhausted does the call fail, carrying the HTTPError of the last response. -/
theorem C1_amended (net : Nat → AttemptOutcome)
    (h : ∀ i, 1 ≤ i → i ≤ 6 → isRejected (net i) = true) :
    request_with_backoff net 6 = ⟨.err (.httpError (statusOf (net 6))), 6, 6⟩ := by
  have hretr : ∀ i, 0 < i → i ≤ 0 + (5 + 1) → isRetried (net i) = true := by
    intro i h1 h2
    have := h i h1 (by omega)
    cases ho : net i with
    | netError msg => rw [ho] at this; simp [isRejected] at this
    | response st txt =>
      rw [ho] at this
      simp [isRejected] at this
      simp [isRetried, this.1]
  have := requestLoopAux_exhaust net 5 0 none 0 hretr
  rw [request_with_backoff, this]
  have h6 := h 6 (by omega) (by omega)
  cases ho : net 6 with
  | netError msg => rw [ho] at h6; simp [isRejected] at h6
  | response st txt =>
    rw [ho] at h6
    simp [isRejected] at h6
    simp [retriedErr, statusOf, h6.2]

/-- Claim C1 witness: instantiated on a network that answers 404 to every
attempt. -/
theorem C1_witness :
    request_with_backoff c404net 6 = ⟨.err (.httpError 404), 6, 6⟩ :=
  C1_amended c404net (by decide)

/-- Claim C4: if every attempt fails at the network level or with a status in
{429, 403, 502, 503, 504}, the request layer makes exactly the fixed maximum
of 6 attempts (never more), never returns such a response as a success, and
then fails with the error carrying the last observed status/text (or the last
network exception). -/
theorem C4_retry_exhaustion (net : Nat → AttemptOutcome)
    (h : ∀ i, 1 ≤ i → i ≤ 6 → isTransient (net i) = true) :
    request_with_backoff net 6 = ⟨.err (outcomeErr (net 6)), 6, 6⟩ := by
  have hretr : ∀ i, 0 < i → i ≤ 0 + (5 + 1) → isRetried (net i) = true := by
    intro i h1 h2
    have := h i h1 (by omega)
    cases ho : net i with
    | netError msg => simp [isRetried]
    | response st txt =>
      rw [ho] at this
      simp [isTransient] at this
      have : 400 ≤ st := by
        simp [RETRYABLE] at this
        rcases this with rfl | rfl | rfl | rfl | rfl <;> omega
      simp [isRetried, this]
  have := requestLoopAux_exhaust net 5 0 none 0 hretr
  rw [request_with_backoff, this]
  have h6 := h 6 (by omega) (by omega)
  cases ho : net 6 with
  | netError msg => simp [retriedErr, outcomeErr]
  | response st txt =>
    rw [ho] at h6
    simp [isTransient] at h6
    simp [retriedErr, outcomeErr, h6]

/-- Claim C4 witness: a network answering 503 on every attempt exhausts the
6-attempt budget and fails with the last observed status and text. -/
theorem C4_witness :
    request_with_backoff c503net 6 =
      ⟨.err (.statusError 503 "Service Unavailable"), 6, 6⟩ :=
  C4_retry_exhaustion c503net (by decide)

/-- Claim C3, as stated, is false for one family of integer header values:
an integer Retry-After of -5 does not produce a sleep of -5 + 1 = -4 seconds
in the Retry-After branch; `time.sleep(-4)` raises ValueError inside the
`try`, the exception is swallowed, and the exponential-jitter branch runs
instead (here: min(60, 2^1) + 1 = 3 seconds). -/
theorem C3_counterexample :
    sleep_backoff 1 (some ⟨some (-5), none, none⟩) 0 1 ≠
      ((((-5 : ℤ) + 1 : ℤ) : ℚ), .retryAfterHdr) ∧
    sleep_backoff 1 (some ⟨some (-5), none, none⟩) 0 1 = ((3 : ℚ), .expJitter) := by
  constructor
  · intro h
    have : BackoffCause.expJitter = BackoffCause.retryAfterHdr := congrArg Prod.snd h
    simp at this
  · show expSleep 1 1 = ((3 : ℚ), .expJitter)
    rw [expSleep]
    norm_num

/-- Claim C3 (amended): whenever the response carries an integer Retry-After
header with value r ≥ -1, the computed sleep is exactly r + 1 seconds,
independent of the attempt count, and this branch takes priority over the
rate-limit-reset and exponential-jitter branches; in particular Retry-After 5
yields a 6-second sleep.  (For r < -1 the attempted negative sleep raises and
is swallowed, falling through to the later branches.) -/
theorem C3_amended (attempt : Nat) (r : Int) (rem : Option String)
    (reset : Option Int) (now : Int) (jitter : ℚ) (h : -1 ≤ r) :
    sleep_backoff attempt (some ⟨some r, rem, reset⟩) now jitter =
      (((r + 1 : ℤ) : ℚ), .retryAfterHdr) := by
  have h' : (0 : ℤ) ≤ r + 1 := by omega
  simp [sleep_backoff, h']

/-- Claim C3 witness: Retry-After 5, with rate-limit headers also present and
a nonzero attempt count, sleeps exactly 6 seconds via the Retry-After branch. -/
theorem C3_witness :
    sleep_backoff 3 (some ⟨some 5, some "0", some 99⟩) 0 1 =
      (((5 + 1 : ℤ) : ℚ), .retryAfterHdr) :=
  C3_amended 3 5 (some "0") (some 99) 0 1 (by omega)

theorem parseQuoted_sound (s c r : List Char) (h : parseQuoted s = some (c, r)) :
    c ≠ [] := by
  unfold parseQuoted at h
  split at h
  · split at h
    · split at h
      · exact absurd h (by simp)
      · rename_i hne
        injection h with h1
        injection h1 with h2 h3
        rw [← h2]
        exact hne
    · exact absurd h (by simp)
  · exact absurd h (by simp)

theorem parseDepLine_sound (line : List Char) (op : Char) (n v : List Char)
    (h : parseDepLine line = some (op, n, v)) :
    (op = '-' ∨ op = '+') ∧ n ≠ [] ∧ v ≠ [] := by
  unfold parseDepLine at h
  split at h
  · exact absurd h (by simp)
  · rename_i op' rest
    split at h
    · rename_i hop
      split at h
      · rename_i name restAfterName hq1
        split at h
        · rename_i r3
          split at h
          · rename_i ver rest2 hq2
            simp only [Option.some.injEq, Prod.mk.injEq] at h
            obtain ⟨rfl, rfl, rfl⟩ := h
            exact ⟨hop, parseQuoted_sound _ _ _ hq1, parseQuoted_sound _ _ _ hq2⟩
          · exact absurd h (by simp)
        · exact absurd h (by simp)
      · exact absurd h (by simp)
    · exact absurd h (by simp)

theorem parse_foldl_eq (patch : List (List Char)) :
    ∀ (d a : List (String × String)),
      patch.foldl parseStep (d, a) =
        ((minusPairs patch).foldl (fun acc p => dictInsert acc p.1 p.2) d,
         (plusPairs patch).foldl (fun acc p => dictInsert acc p.1 p.2) a) := by
  induction patch with
  | nil => intro d a; simp [minusPairs, plusPairs]
  | cons line rest ih =>
    intro d a
    cases hpl : parseDepLine line with
    | none =>
      simp only [List.foldl_cons, minusPairs, plusPairs, List.filterMap_cons, hpl]
      rw [show parseStep (d, a) line = (d, a) by simp [parseStep, hpl]]
      exact ih d a
    | some r =>
      by_cases hminus : r.1 = '-'
      · simp only [List.foldl_cons, minusPairs, plusPairs, List.filterMap_cons, hpl,
          hminus, if_pos rfl]
        rw [show parseStep (d, a) line =
              (dictInsert d (String.mk r.2.1) (String.mk r.2.2), a) by
            simp [parseStep, hpl, hminus]]
        simpa [minusPairs, plusPairs] using
          ih (dictInsert d (String.mk r.2.1) (String.mk r.2.2)) a
      · by_cases hplus : r.1 = '+'
        · simp only [List.foldl_cons, minusPairs, plusPairs, List.filterMap_cons, hpl,
            hminus, hplus, if_neg hminus, if_pos rfl]
          rw [show parseStep (d, a) line =
                (d, dictInsert a (String.mk r.2.1) (String.mk r.2.2)) by
              simp [parseStep, hpl, hminus, hplus]]
          simpa [minusPairs, plusPairs] using
            ih d (dictInsert a (String.mk r.2.1) (String.mk r.2.2))
        · simp only [List.foldl_cons, minusPairs, plusPairs, List.filterMap_cons, hpl,
            hminus, hplus, if_neg hminus, if_neg hplus]
          rw [show parseStep (d, a) line = (d, a) by simp [parseStep, hpl, hminus, hplus]]
          exact ih d a

theorem parse_removed_eq (patch : List (List Char)) :
    (parse_removed_added_from_patch patch).1 =
      (minusPairs patch).foldl (fun acc p => dictInsert acc p.1 p.2) [] := by
  rw [parse_removed_added_from_patch, parse_foldl_eq]

theorem mem_dictOf {α : Type} (ps : List (String × α)) :
    ∀ (d : List (String × α)) (x : String × α),
      x ∈ ps.foldl (fun acc p => dictInsert acc p.1 p.2) d → x ∈ d ∨ x ∈ ps := by
  induction ps with
  | nil => intro d x h; exact Or.inl h
  | cons p ps ih =>
    intro d x h
    rcases ih _ x h with h' | h'
    · rcases mem_dictInsert d p.1 p.2 x h' with h'' | h''
      · exact Or.inr (by simp [h''])
      · exact Or.inl h''
    · exact Or.inr (List.mem_cons_of_mem _ h')

theorem dictOf_keys_nodup {α : Type} (ps : List (String × α)) :
    ∀ (d : List (String × α)), (d.map Prod.fst).Nodup →
      ((ps.foldl (fun acc p => dictInsert acc p.1 p.2) d).map Prod.fst).Nodup := by
  induction ps with
  | nil => intro d h; simpa using h
  | cons p ps ih => intro d h; exact ih _ (dictInsert_keys_nodup d p.1 p.2 h)

theorem minusPairs_val_ne (patch : List (List Char)) (p : String × String)
    (hp : p ∈ minusPairs patch) : p.2 ≠ "" := by
  unfold minusPairs at hp
  rw [List.mem_filterMap] at hp
  obtain ⟨line, _, hsome⟩ := hp
  cases hpl : parseDepLine line with
  | none =>
    rw [hpl] at hsome
    exact Option.noConfusion hsome
  | some r =>
    rw [hpl] at hsome
    have hsome' : (if r.1 = '-' then
        some (String.mk r.2.1, String.mk r.2.2) else none) = some p := hsome
    by_cases hminus : r.1 = '-'
    · rw [if_pos hminus] at hsome'
      injection hsome' with h1
      have hv : r.2.2 ≠ [] :=
        (parseDepLine_sound line r.1 r.2.1 r.2.2 (by rw [hpl])).2.2
      rw [← h1]
      intro hcon
      exact hv (by simpa using congrArg String.data hcon)
    · rw [if_neg hminus] at hsome'
      exact Option.noConfusion hsome'

/-- The value stored in the removed-map for every name appearing with a
leading minus: the last occurrence wins (and everything is decided by
`minusPairs`). -/
theorem removed_lookup_eq_last (patch : List (List Char)) (n : String) :
    dictLookup (parse_removed_added_from_patch patch).1 n =
      lastValueFor (minusPairs patch) n := by
  rw [parse_removed_eq, dictLookup_foldl]
  cases hf : (minusPairs patch).reverse.find? (fun p => p.1 == n) with
  | none => simp [lastValueFor, hf, dictLookup]
  | some q => simp [lastValueFor, hf]

/-- Claim C2: the extractor produces exactly one Dependency Change per name in
the removed-map (each name matched with a leading minus appears exactly once,
with the last occurrence's version), whose `versions_before` is the
removed-map value and whose `versions_after` is the added-map value for the
same name when present and empty otherwise; names present only in the
added-map produce no Dependency Change. -/
theorem C2_dep_changes (fname : String) (patch : List (List Char)) (n v : String) :
    (removedEntriesForFile fname patch).map DepChange.name =
        ((parse_removed_added_from_patch patch).1).map Prod.fst ∧
    (((parse_removed_added_from_patch patch).1).map Prod.fst).Nodup ∧
    dictLookup (parse_removed_added_from_patch patch).1 n =
        lastValueFor (minusPairs patch) n ∧
    (dictLookup (parse_removed_added_from_patch patch).1 n = some v →
      ∃ c, c ∈ removedEntriesForFile fname patch ∧ c.name = n ∧
        c.versions_before = [v] ∧
        c.versions_after =
          (match dictLookup (parse_removed_added_from_patch patch).2 n with
           | some w => [w]
           | none => []) ∧
        c.file = fname) ∧
    (dictLookup (parse_removed_added_from_patch patch).1 n = none →
      ∀ c, c ∈ removedEntriesForFile fname patch → c.name ≠ n) := by
  refine ⟨?_, ?_, removed_lookup_eq_last patch n, ?_, ?_⟩
  · simp [removedEntriesForFile, mkDepChange]
  · rw [parse_removed_eq]
    exact dictOf_keys_nodup (minusPairs patch) [] (by simp)
  · intro h
    have hmem : (n, v) ∈ (parse_removed_added_from_patch patch).1 :=
      dictLookup_mem _ n v h
    have hmp : (n, v) ∈ minusPairs patch := by
      rw [parse_removed_eq] at hmem
      rcases mem_dictOf (minusPairs patch) [] (n, v) hmem with h' | h'
      · simp at h'
      · exact h'
    have hv : v ≠ "" := minusPairs_val_ne patch (n, v) hmp
    refine ⟨mkDepChange (parse_removed_added_from_patch patch).2 fname (n, v),
      List.mem_map_of_mem _ hmem, rfl, ?_, rfl, rfl⟩
    simp [mkDepChange, hv]
  · intro h c hc hname
    rw [dictLookup_eq_none] at h
    apply h
    rw [removedEntriesForFile] at hc
    rw [List.mem_map] at hc
    obtain ⟨p, hp, hpc⟩ := hc
    have : c.name = p.1 := by rw [← hpc]; rfl
    rw [← hname, this]
    exact List.mem_map_of_mem Prod.fst hp

/-- Claim C2 witness: on the concrete patch, the lodash Dependency Change
carries the last removed version 4.17.11 as `versions_before` and the added
4.17.21 as `versions_after`. -/
theorem C2_witness :
    ∃ c, c ∈ removedEntriesForFile "package.json" c2patch ∧ c.name = "lodash" ∧
      c.versions_before = ["4.17.11"] ∧
      c.versions_after =
        (match dictLookup (parse_removed_added_from_patch c2patch).2 "lodash" with
         | some w => [w]
         | none => []) ∧
      c.file = "package.json" :=
  (C2_dep_changes "package.json" c2patch "lodash" "4.17.11").2.2.2.1 (by decide)

theorem metricsFold (fetch : String → Option (List String)) (haveLizard : Bool)
    (lizardO : String → List String → List ℚ) (l : List TreeItem) :
    ∀ (a : Nat) (b : List ℚ) (c : Nat),
      l.foldl (metricsStep fetch haveLizard lizardO) (a, b, c) =
        (a + ((l.filter (fun it => (fetch it.sha).isSome)).map
                (fun it => nonblankLineCount ((fetch it.sha).getD []))).sum,
         b ++ ((l.filter (fun it => (fetch it.sha).isSome)).map
                (fun it => if haveLizard then lizardO it.path ((fetch it.sha).getD [])
                           else [])).join,
         c + (l.filter (fun it => (fetch it.sha).isSome)).length) := by
  induction l with
  | nil => intro a b c; simp
  | cons it rest ih =>
    intro a b c
    cases hf : fetch it.sha with
    | none =>
      simp only [List.foldl_cons, List.filter_cons, hf, Option.isSome_none,
        Bool.false_eq_true, if_false, metricsStep]
      exact ih a b c
    | some content =>
      simp only [List.foldl_cons, List.filter_cons, hf, Option.isSome_some, if_true,
        metricsStep, analyze_source_complexity]
      rw [ih]
      simp only [List.map_cons, List.sum_cons, List.join, List.length_cons, hf,
        Option.getD_some, Prod.mk.injEq]
      refine ⟨by omega, by simp [List.append_assoc], by omega⟩

/-- Claim C5: for every tree, fetch behaviour and file limit, a retained blob
whose fetch fails is skipped — it contributes nothing to `lines_of_code` or
to the collected complexity scores and does not count toward
`files_processed` — and the pass always produces a well-defined Metrics
value (the embedding is a total function, matching the source in which every
fetch/decode failure is caught and returned as None); `files_processed`
equals exactly the number of successfully fetched blobs. -/
theorem C5_fetch_failures_skipped (tree : List TreeItem)
    (fetch : String → Option (List String)) (haveLizard : Bool)
    (lizardO : String → List String → List ℚ) (file_limit : Nat) :
    (compute_metrics_from_commit tree fetch haveLizard lizardO file_limit).files_processed =
        (successfulFetches tree fetch file_limit).length ∧
    (compute_metrics_from_commit tree fetch haveLizard lizardO file_limit).lines_of_code =
        ((successfulFetches tree fetch file_limit).map
          (fun it => nonblankLineCount ((fetch it.sha).getD []))).sum ∧
    (compute_metrics_from_commit tree fetch haveLizard lizardO file_limit).avg_complexity =
        (if collectedComps tree fetch haveLizard lizardO file_limit ≠ [] then
          roundQ4 (qMean (collectedComps tree fetch haveLizard lizardO file_limit))
        else 0) := by
  by_cases htree : tree = []
  · subst htree
    simp [compute_metrics_from_commit, successfulFetches, collectedComps,
      truncatedCandidates, candidateBlobs]
  · by_cases hcand : candidateBlobs tree = []
    · have htrunc : truncatedCandidates tree file_limit = [] := by
        simp [truncatedCandidates, hcand]
      simp [compute_metrics_from_commit, htree, hcand, successfulFetches,
        collectedComps, htrunc]
    · have hfold := metricsFold fetch haveLizard lizardO
        (truncatedCandidates tree file_limit) 0 [] 0
      simp only [compute_metrics_from_commit, htree, hcand, if_false, hfold]
      simp [successfulFetches, collectedComps]

/-- Claim C6, as stated, is false at file_limit = 0: `if file_limit and ...`
treats 0 as falsy, so no truncation happens and 1 blob is fetched although
min(0, 1) = 0. -/
theorem C6_counterexample :
    ¬ ((truncatedCandidates c6tree 0).length ≤ min 0 (candidateBlobs c6tree).length) := by
  decide

/-- Claim C6 (amended): for every tree and every positive (truthy) file
limit, the retained list is the stable prefix `take file_limit` of the
filtered candidate list (no random sampling), so the number of blobs fetched
never exceeds min(file_limit, qualifying_blob_count); a file_limit of 0
disables truncation, so all qualifying blobs are fetched. -/
theorem C6_amended (tree : List TreeItem) (file_limit : Nat) (h : file_limit ≠ 0) :
    truncatedCandidates tree file_limit = (candidateBlobs tree).take file_limit ∧
    (truncatedCandidates tree file_limit).length ≤
      min file_limit (candidateBlobs tree).length := by
  have heq : truncatedCandidates tree file_limit = (candidateBlobs tree).take file_limit := by
    rw [truncatedCandidates]
    by_cases hlt : file_limit < (candidateBlobs tree).length
    · simp [h, hlt]
    · have hle : (candidateBlobs tree).length ≤ file_limit := by omega
      simp [hlt, List.take_of_length_le hle]
  refine ⟨heq, ?_⟩
  rw [heq, List.length_take]

/-- Claim C6 witness: on a tree with one qualifying blob and file_limit 1,
truncation is the stable prefix and the bound holds. -/
theorem C6_witness :
    truncatedCandidates c6tree 1 = (candidateBlobs c6tree).take 1 ∧
    (truncatedCandidates c6tree 1).length ≤ min 1 (candidateBlobs c6tree).length :=
  C6_amended c6tree 1 (by decide)

theorem contentsFold (l : List (List Char)) :
    ∀ (a b c : Nat),
      l.foldl contentsStep (a, b, c) =
        (a + specTotalLoc l, b + specTotalFunctions l, c + specTotalContrib l) := by
  induction l with
  | nil => intro a b c; simp [specTotalLoc, specTotalFunctions, specTotalContrib]
  | cons src rest ih =>
    intro a b c
    by_cases hsrc : src = []
    · subst hsrc
      simp only [List.foldl_cons, contentsStep, if_pos rfl]
      rw [ih]
      have h1 : pyLineCount [] = 0 := rfl
      have h2 : fileFunctionTally [] = 0 := rfl
      simp [specTotalLoc, specTotalFunctions, specTotalContrib, h1, h2, countMatches,
        countAux]
    · by_cases hcond : countMatches FUNCTION_ALTS src = 0 ∧ 0 < countMatches KEYWORD_ALTS src
      · simp only [List.foldl_cons, contentsStep, if_neg hsrc, if_pos hcond]
        rw [ih]
        have ht : fileFunctionTally src = 1 := if_pos hcond
        simp only [specTotalLoc, specTotalFunctions, specTotalContrib, List.map_cons,
          List.sum_cons, ht, Prod.mk.injEq]
        refine ⟨by omega, by omega, by omega⟩
      · simp only [List.foldl_cons, contentsStep, if_neg hsrc, if_neg hcond]
        rw [ih]
        have ht : fileFunctionTally src = countMatches FUNCTION_ALTS src := if_neg hcond
        simp only [specTotalLoc, specTotalFunctions, specTotalContrib, List.map_cons,
          List.sum_cons, ht, Prod.mk.injEq]
        refine ⟨by omega, by omega, by omega⟩

/-- Claim C9 (amended): with no structural analyzer available, the fallback
derives `avg_complexity` from per-file counts of control-flow keywords and
function-introducer tokens, apportioning the total keyword-plus-function
count across the detected functions (a file with zero detected functions but
nonzero keywords counts as one implicit function), and returns, over the
whole file set, `round(total_contribution / total_function_count, 4)` —
the exact ratio rounded to 4 decimal places — and 0.0 when
`total_function_count` is zero. -/
theorem C9_amended (contents : List (List Char)) :
    analyze_contents contents =
      ⟨specTotalLoc contents,
       if 0 < specTotalFunctions contents then
         roundQ4 ((specTotalContrib contents : ℚ) / (specTotalFunctions contents : ℚ))
       else 0⟩ := by
  have h := contentsFold contents 0 0 0
  rw [analyze_contents, h]
  simp

/-- Claim C9, as stated, is false on the code: the returned `avg_complexity`
is rounded to 4 decimal places, so for a file set with total contribution 4
over 3 detected functions the result (1.3333) differs from
total_contribution / total_function_count = 4/3. -/
theorem C9_counterexample :
    (analyze_contents [c9file]).avg_complexity ≠
      (specTotalContrib [c9file] : ℚ) / (specTotalFunctions [c9file] : ℚ) := by
  have h1 : List.foldl contentsStep (0, 0, 0) [c9file] = (1, 3, 4) := by decide
  have h2 : specTotalContrib [c9file] = 4 := by decide
  have h3 : specTotalFunctions [c9file] = 3 := by decide
  have hfloor : ⌊(4 : ℚ) / 3 * 10000⌋ = 13333 := by
    rw [Int.floor_eq_iff]
    constructor <;> norm_num
  have havg : (analyze_contents [c9file]).avg_complexity = 13333 / 10000 := by
    rw [analyze_contents]
    simp only [h1]
    norm_num [roundQ4, roundHalfEven, hfloor]
  rw [havg, h2, h3]
  norm_num

/-- Claim C10: for a package name not in the cache, a failed vulnerability
lookup (non-200 or exception) returns (0, []) and stores (0, []) in the cache
under that name, so every subsequent lookup of the same name returns (0, [])
from the cache without consulting the network (the second call's result is
independent of its network oracle and leaves the cache unchanged). -/
theorem C10_failure_cached (cache : List (String × (Nat × List String))) (name : String)
    (netO netO2 : Option (Nat × List String))
    (hmiss : dictLookup cache name = none) (hfail : netO = none) :
    (get_cve_for_package netO cache name).1 = (0, []) ∧
    dictLookup (get_cve_for_package netO cache name).2 name = some (0, []) ∧
    get_cve_for_package netO2 (get_cve_for_package netO cache name).2 name =
      ((0, []), (get_cve_for_package netO cache name).2) := by
  subst hfail
  have hlook : dictLookup (dictInsert cache name (0, [])) name = some (0, []) := by
    rw [dictLookup_insert]; simp
  refine ⟨?_, ?_, ?_⟩
  · simp only [get_cve_for_package, hmiss]
  · simp only [get_cve_for_package, hmiss]
    exact hlook
  · simp only [get_cve_for_package, hmiss, hlook]

/-- Claim C10 witness: an empty cache, a failing lookup for left-pad, then a
second call whose network oracle would now succeed — still answered from the
cache. -/
theorem C10_witness :
    (get_cve_for_package none [] "left-pad").1 = (0, []) ∧
    dictLookup (get_cve_for_package none [] "left-pad").2 "left-pad" = some (0, []) ∧
    get_cve_for_package (some (3, ["CVE-1"])) (get_cve_for_package none [] "left-pad").2
        "left-pad" =
      ((0, []), (get_cve_for_package none [] "left-pad").2) :=
  C10_failure_cached [] "left-pad" none (some (3, ["CVE-1"])) rfl rfl

theorem emitLoop_mem (mk : DepChange → Candidate) (maxC : Nat) :
    ∀ (deps : List DepChange) (results : List Candidate) (x : Candidate),
      x ∈ emitLoop mk maxC results deps → x ∈ results ∨ ∃ r ∈ deps, x = mk r := by
  intro deps
  induction deps with
  | nil => intro results x hx; exact Or.inl hx
  | cons r rs ih =>
    intro results x hx
    simp only [emitLoop] at hx
    by_cases hcap : maxC ≠ 0 ∧ maxC ≤ (results ++ [mk r]).length
    · rw [if_pos hcap] at hx
      rcases List.mem_append.mp hx with h | h
      · exact Or.inl h
      · exact Or.inr ⟨r, by simp, by simpa using h⟩
    · rw [if_neg hcap] at hx
      rcases ih _ x hx with h | h
      · rcases List.mem_append.mp h with h' | h'
        · exact Or.inl h'
        · exact Or.inr ⟨r, by simp, by simpa using h'⟩
      · obtain ⟨r', hr', hxr⟩ := h
        exact Or.inr ⟨r', List.mem_cons_of_mem _ hr', hxr⟩

theorem removedFold_append (files : List FileEntry) :
    ∀ acc : List DepChange,
      files.foldl (fun acc f =>
        if strEndsWith (strToLower f.filename) "package.json" then
          acc ++ removedEntriesForFile f.filename (f.patch.getD [])
        else acc) acc
      = acc ++ files.foldl (fun acc f =>
        if strEndsWith (strToLower f.filename) "package.json" then
          acc ++ removedEntriesForFile f.filename (f.patch.getD [])
        else acc) [] := by
  induction files with
  | nil => intro acc; simp
  | cons f fs ih =>
    intro acc
    simp only [List.foldl_cons]
    by_cases hm : strEndsWith (strToLower f.filename) "package.json" = true
    · rw [if_pos hm, if_pos hm, ih (acc ++ _), ih ([] ++ _)]
      simp [List.append_assoc]
    · rw [if_neg hm, if_neg hm, ih acc]

theorem removedListOfFiles_cons (f : FileEntry) (fs : List FileEntry) :
    removedListOfFiles (f :: fs) =
      (if strEndsWith (strToLower f.filename) "package.json" then
        removedEntriesForFile f.filename (f.patch.getD []) else []) ++
      removedListOfFiles fs := by
  simp only [removedListOfFiles, List.foldl_cons]
  by_cases hm : strEndsWith (strToLower f.filename) "package.json" = true
  · rw [if_pos hm, if_pos hm, removedFold_append fs]
    simp
  · rw [if_neg hm, if_neg hm]
    simp

theorem removedListOfFiles_ne_nil (files : List FileEntry)
    (h : removedListOfFiles files ≠ []) :
    ∃ f, f ∈ files ∧ strEndsWith (strToLower f.filename) "package.json" = true ∧
      (parse_removed_added_from_patch (f.patch.getD [])).1 ≠ [] := by
  induction files with
  | nil => simp [removedListOfFiles] at h
  | cons f fs ih =>
    rw [removedListOfFiles_cons] at h
    by_cases hm : strEndsWith (strToLower f.filename) "package.json" = true
    · by_cases hrm : (parse_removed_added_from_patch (f.patch.getD [])).1 = []
      · have hent : removedEntriesForFile f.filename (f.patch.getD []) = [] := by
          rw [removedEntriesForFile, hrm]; rfl
        rw [if_pos hm, hent] at h
        simp only [List.nil_append] at h
        obtain ⟨g, hg, hgm, hgrm⟩ := ih h
        exact ⟨g, List.mem_cons_of_mem _ hg, hgm, hgrm⟩
      · exact ⟨f, by simp, hm, hrm⟩
    · rw [if_neg hm] at h
      simp only [List.nil_append] at h
      obtain ⟨g, hg, hgm, hgrm⟩ := ih h
      exact ⟨g, List.mem_cons_of_mem _ hg, hgm, hgrm⟩

theorem mineLoop_inv (repo : String) (detailO : String → Option CommitDetail)
    (metricsO : String → Option MetricsPair) (cveO : String → Nat × List String)
    (maxC : Nat) (commits0 : List CommitInfo) :
    ∀ (cs : List CommitInfo) (results : List Candidate),
      (∀ x ∈ results, CandProp commits0 detailO x) →
      (∀ c ∈ cs, c ∈ commits0) →
      ∀ x ∈ mineLoop repo detailO metricsO cveO maxC results cs,
        CandProp commits0 detailO x := by
  intro cs
  induction cs with
  | nil => intro results hres _ x hx; exact hres x hx
  | cons c rest ih =>
    intro results hres hcs x hx
    simp only [mineLoop] at hx
    split at hx
    · exact hres x hx
    · split at hx
      · exact ih results hres (fun c' hc' => hcs c' (List.mem_cons_of_mem _ hc')) x hx
      · rename_i parent ps hp
        split at hx
        · exact ih results hres (fun c' hc' => hcs c' (List.mem_cons_of_mem _ hc')) x hx
        · rename_i d hd
          split at hx
          · exact ih results hres (fun c' hc' => hcs c' (List.mem_cons_of_mem _ hc')) x hx
          · rename_i hrm
            refine ih _ ?_ (fun c' hc' => hcs c' (List.mem_cons_of_mem _ hc')) x hx
            intro y hy
            rcases emitLoop_mem _ _ _ _ y hy with h | h
            · exact hres y h
            · obtain ⟨r, _, rfl⟩ := h
              obtain ⟨f, hf, hfm, hfrm⟩ := removedListOfFiles_ne_nil d.files hrm
              exact ⟨c, hcs c (List.mem_cons_self c rest), rfl, by simp [hp],
                d, hd, hrm, f, hf, hfm, hfrm⟩

/-- Claim C7: every Candidate Record the orchestrator emits corresponds to a
commit that (i) has at least one parent (parentless commits are skipped),
(ii) modified at least one file whose name ends with package.json, and
(iii) has a non-empty removed-dependency set extracted from those files'
patches; no record is emitted for a commit failing any of these. -/
theorem C7_candidate_invariant (repo : String) (commits : List CommitInfo)
    (daysBack : Bool) (keepDate : CommitInfo → Bool) (limit_commits : Nat)
    (detailO : String → Option CommitDetail) (metricsO : String → Option MetricsPair)
    (cveO : String → Nat × List String) (max_candidates : Nat) (cand : Candidate)
    (h : cand ∈ analyze_repo repo commits daysBack keepDate limit_commits detailO
          metricsO cveO max_candidates) :
    CandProp commits detailO cand := by
  rw [analyze_repo] at h
  by_cases hc : commits = []
  · rw [if_pos hc] at h; simp at h
  · rw [if_neg hc] at h
    refine mineLoop_inv repo detailO metricsO cveO max_candidates commits _ []
      (by simp) ?_ cand h
    intro c hcin
    by_cases hl : limit_commits ≠ 0
    · rw [if_pos hl] at hcin
      have hcin' := List.take_subset _ _ hcin
      by_cases hdb : daysBack = true
      · rw [if_pos hdb] at hcin'; exact (List.mem_filter.mp hcin').1
      · rw [if_neg hdb] at hcin'; exact hcin'
    · rw [if_neg hl] at hcin
      by_cases hdb : daysBack = true
      · rw [if_pos hdb] at hcin; exact (List.mem_filter.mp hcin).1
      · rw [if_neg hdb] at hcin; exact hcin

/-- Claim C7 witness: a concrete one-commit repository whose emitted record
satisfies the invariant. -/
theorem C7_witness : CandProp c7commits c7detail c7cand :=
  C7_candidate_invariant "r" c7commits false (fun _ => true) 0 c7detail
    (fun s => if s = "p0" then some ⟨10, 1⟩ else some ⟨12, 2⟩) (fun _ => (0, []))
    1 c7cand (by decide)

theorem emitLoop_strip (mk1 mk2 : DepChange → Candidate) (maxC : Nat)
    (hmk : ∀ r, stripMetrics (mk1 r) = stripMetrics (mk2 r)) :
    ∀ (deps : List DepChange) (res1 res2 : List Candidate),
      res1.map stripMetrics = res2.map stripMetrics →
      (emitLoop mk1 maxC res1 deps).map stripMetrics =
        (emitLoop mk2 maxC res2 deps).map stripMetrics := by
  intro deps
  induction deps with
  | nil => intro res1 res2 h; simpa [emitLoop] using h
  | cons r rs ih =>
    intro res1 res2 h
    have hlen : res1.length = res2.length := by
      have := congrArg List.length h; simpa using this
    have happ : (res1 ++ [mk1 r]).map stripMetrics = (res2 ++ [mk2 r]).map stripMetrics := by
      simp [h, hmk r]
    simp only [emitLoop]
    by_cases hcap : maxC ≠ 0 ∧ maxC ≤ (res1 ++ [mk1 r]).length
    · have hcap2 : maxC ≠ 0 ∧ maxC ≤ (res2 ++ [mk2 r]).length := by
        simpa [hlen] using hcap
      rw [if_pos hcap, if_pos hcap2]
      exact happ
    · have hcap2 : ¬ (maxC ≠ 0 ∧ maxC ≤ (res2 ++ [mk2 r]).length) := by
        simpa [hlen] using hcap
      rw [if_neg hcap, if_neg hcap2]
      exact ih _ _ happ

theorem mineLoop_strip (repo : String) (detailO : String → Option CommitDetail)
    (metricsO1 metricsO2 : String → Option MetricsPair)
    (cveO : String → Nat × List String) (maxC : Nat) :
    ∀ (cs : List CommitInfo) (res1 res2 : List Candidate),
      res1.map stripMetrics = res2.map stripMetrics →
      (mineLoop repo detailO metricsO1 cveO maxC res1 cs).map stripMetrics =
        (mineLoop repo detailO metricsO2 cveO maxC res2 cs).map stripMetrics := by
  intro cs
  induction cs with
  | nil => intro res1 res2 h; simpa [mineLoop] using h
  | cons c rest ih =>
    intro res1 res2 h
    have hlen : res1.length = res2.length := by
      have := congrArg List.length h; simpa using this
    simp only [mineLoop]
    by_cases hcap : maxC ≠ 0 ∧ maxC ≤ res1.length
    · have hcap2 : maxC ≠ 0 ∧ maxC ≤ res2.length := by rwa [hlen] at hcap
      rw [if_pos hcap, if_pos hcap2]
      exact h
    · have hcap2 : ¬ (maxC ≠ 0 ∧ maxC ≤ res2.length) := by rwa [hlen] at hcap
      rw [if_neg hcap, if_neg hcap2]
      cases hp : c.parents with
      | nil => exact ih res1 res2 h
      | cons parent ps =>
        cases hd : detailO c.sha with
        | none => exact ih res1 res2 h
        | some d =>
          by_cases hrm : removedListOfFiles d.files = []
          · simp only [if_pos hrm]
            exact ih res1 res2 h
          · simp only [if_neg hrm]
            apply ih
            apply emitLoop_strip
            · intro r; rfl
            · exact h

theorem mineLoop_zeroed (repo : String) (detailO : String → Option CommitDetail)
    (metricsO : String → Option MetricsPair) (cveO : String → Nat × List String)
    (maxC : Nat) :
    ∀ (cs : List CommitInfo) (results : List Candidate),
      (∀ x ∈ results, ZeroedProp metricsO x) →
      ∀ x ∈ mineLoop repo detailO metricsO cveO maxC results cs,
        ZeroedProp metricsO x := by
  intro cs
  induction cs with
  | nil => intro results hres x hx; exact hres x hx
  | cons c rest ih =>
    intro results hres x hx
    simp only [mineLoop] at hx
    split at hx
    · exact hres x hx
    · split at hx
      · exact ih results hres x hx
      · rename_i parent ps hp
        split at hx
        · exact ih results hres x hx
        · rename_i d hd
          split at hx
          · exact ih results hres x hx
          · refine ih _ ?_ x hx
            intro y hy
            rcases emitLoop_mem _ _ _ _ y hy with h | h
            · exact hres y h
            · obtain ⟨r, _, rfl⟩ := h
              constructor
              · intro hn
                have hn' : metricsO parent = none := hn
                show (metricsO parent).getD ⟨0, 0⟩ = ⟨0, 0⟩
                rw [hn']
                rfl
              · intro hn
                have hn' : metricsO c.sha = none := hn
                show (metricsO c.sha).getD ⟨0, 0⟩ = ⟨0, 0⟩
                rw [hn']
                rfl

/-- Claim C8: a failure computing the before- or after-metrics snapshot is
caught per-commit and the failing snapshot is replaced by the zeroed snapshot
(0 lines, 0.0 complexity); the Candidate Record is still emitted rather than
dropped — the emitted records (apart from their metrics fields) are exactly
those that any other metrics behaviour would emit. -/
theorem C8_metrics_degradation (repo : String) (commits : List CommitInfo)
    (daysBack : Bool) (keepDate : CommitInfo → Bool) (limit_commits : Nat)
    (detailO : String → Option CommitDetail) (cveO : String → Nat × List String)
    (max_candidates : Nat) (metricsO metricsO2 : String → Option MetricsPair) :
    (analyze_repo repo commits daysBack keepDate limit_commits detailO metricsO cveO
        max_candidates).map stripMetrics =
      (analyze_repo repo commits daysBack keepDate limit_commits detailO metricsO2 cveO
        max_candidates).map stripMetrics ∧
    ∀ cand ∈ analyze_repo repo commits daysBack keepDate limit_commits detailO metricsO
        cveO max_candidates,
      (metricsO cand.parent = none → cand.metrics_before = ⟨0, 0⟩) ∧
      (metricsO cand.commit = none → cand.metrics_after = ⟨0, 0⟩) := by
  constructor
  · rw [analyze_repo, analyze_repo]
    by_cases hc : commits = []
    · rw [if_pos hc, if_pos hc]
    · rw [if_neg hc, if_neg hc]
      exact mineLoop_strip repo detailO metricsO metricsO2 cveO max_candidates _ [] [] rfl
  · intro cand hcand
    rw [analyze_repo] at hcand
    by_cases hc : commits = []
    · rw [if_pos hc] at hcand; simp at hcand
    · rw [if_neg hc] at hcand
      exact mineLoop_zeroed repo detailO metricsO cveO max_candidates _ []
        (by simp) cand hcand

/-- Claim C8 witness: with an always-failing metrics oracle the one emitted
record matches (metrics aside) the record emitted with a succeeding oracle,
and both its snapshots are zeroed. -/
theorem C8_witness :
    (analyze_repo "r2" c8commits false (fun _ => true) 0 c8detail (fun _ => none)
        (fun _ => (1, ["CVE-2024-0001"])) 1).map stripMetrics =
      (analyze_repo "r2" c8commits false (fun _ => true) 0 c8detail
        (fun _ => some ⟨7, 2⟩) (fun _ => (1, ["CVE-2024-0001"])) 1).map stripMetrics ∧
    c8cand.metrics_before = ⟨0, 0⟩ ∧ c8cand.metrics_after = ⟨0, 0⟩ := by
  refine ⟨(C8_metrics_degradation "r2" c8commits false (fun _ => true) 0 c8detail
      (fun _ => (1, ["CVE-2024-0001"])) 1 (fun _ => none) (fun _ => some ⟨7, 2⟩)).1,
    ?_, ?_⟩
  · exact ((C8_metrics_degradation "r2" c8commits false (fun _ => true) 0 c8detail
      (fun _ => (1, ["CVE-2024-0001"])) 1 (fun _ => none) (fun _ => some ⟨7, 2⟩)).2
      c8cand (by decide)).1 rfl
  · exact ((C8_metrics_degradation "r2" c8commits false (fun _ => true) 0 c8detail
      (fun _ => (1, ["CVE-2024-0001"])) 1 (fun _ => none) (fun _ => some ⟨7, 2⟩)).2
      c8cand (by decide)).2 rfl

end TI6

